import Mathlib

/-!
Verification of the go-shortener URL-shortening service: the in-memory
repository (`internal/repository/url_repository.go`), the URL service with its
asynchronous batch-deletion subsystem (`internal/service/url_service.go`, the
variant with the delete worker), and the short-code generator.

Go maps are embedded as association lists with first-match lookup and
replace-first store; the `*model.URL` map values are embedded by value, since
every claim observes a record only through a lookup at a single point in time.
Machine randomness (`crypto/rand`) is embedded as an explicit `Except` argument
holding the bytes the reader would produce, and the buffered delete channel as
an explicit list with a capacity bound.
-/

/-- Embeds `model.URL` (internal/model/url.go): a shortened URL record. -/
structure URL where
  id : String
  original : String
  short : String
  userID : String
  isDeleted : Bool
deriving DecidableEq, Repr

/-- Error values relevant to the core: `repository.ErrNotFound`,
`model.ErrURLAlreadyExists`, and an opaque failure of the secure random
source (`io.ReadFull(rand.Reader, b)` returning an error). -/
inductive Err where
  | notFound
  | alreadyExists
  | randFailure (msg : String)
deriving DecidableEq, Repr

/-- State of `memoryURLRepository`: the `data map[string]*model.URL` field,
embedded as an association list keyed by short code. -/
def MemRepo : Type := List (String × URL)

/-- Go map read `m[k]`: first-match lookup in the association list. -/
def mapFind {α : Type} : List (String × α) → String → Option α
  | [], _ => none
  | (k, v) :: rest, s => if k = s then some v else mapFind rest s

/-- Go map write `m[k] = v`: replace the first binding of `k`, or append a
fresh binding when `k` is absent. -/
def mapStore {α : Type} : List (String × α) → String → α → List (String × α)
  | [], s, v => [(s, v)]
  | (k, w) :: rest, s, v =>
      if k = s then (s, v) :: rest else (k, w) :: mapStore rest s v

namespace memoryURLRepository

/-- Embeds `memoryURLRepository.Save`: stores the record under its short code
(replacing any previous binding) and returns the record with a nil error. -/
def Save (repo : MemRepo) (url : URL) : MemRepo × URL × Option Err :=
  (mapStore repo url.short url, url, none)

/-- Embeds `memoryURLRepository.GetByShortURL`: map lookup, `ErrNotFound`
(wrapped) when the key is absent. -/
def GetByShortURL (repo : MemRepo) (id : String) : Except Err URL :=
  match mapFind repo id with
  | none => .error .notFound
  | some url => .ok url

/-- Embeds `memoryURLRepository.GetByUserID`: collects the records whose
`UserID` matches, and returns `ErrNotFound` when the collection is empty. -/
def GetByUserID (repo : MemRepo) (userID : String) : Except Err (List URL) :=
  let userURLs := (repo.map Prod.snd).filter (fun url => url.userID = userID)
  if userURLs.length = 0 then .error .notFound else .ok userURLs

/-- Loop body of `memoryURLRepository.BatchDelete`: for each short code, when a
record exists, belongs to the user, and is not yet deleted, set its deleted
flag and store it back. -/
def batchDeleteLoop (uid : String) : MemRepo → List String → MemRepo
  | repo, [] => repo
  | repo, short :: rest =>
      let repo' :=
        match mapFind repo short with
        | none => repo
        | some url =>
            if url.userID = uid ∧ url.isDeleted = false then
              mapStore repo short { url with isDeleted := true }
            else repo
      batchDeleteLoop uid repo' rest

/-- Embeds `memoryURLRepository.BatchDelete`: runs the loop over the short
codes and returns a nil error. -/
def BatchDelete (repo : MemRepo) (shortURLs : List String) (userID : String) :
    MemRepo × Option Err :=
  (batchDeleteLoop userID repo shortURLs, none)

end memoryURLRepository

/-- The URL-safe base64 alphabet used by Go's `base64.RawURLEncoding`:
`A`-`Z`, `a`-`z`, `0`-`9`, `-`, `_`. -/
def base64URLAlphabet : List Char :=
  ['A', 'B', 'C', 'D', 'E', 'F', 'G', 'H', 'I', 'J', 'K', 'L', 'M',
   'N', 'O', 'P', 'Q', 'R', 'S', 'T', 'U', 'V', 'W', 'X', 'Y', 'Z',
   'a', 'b', 'c', 'd', 'e', 'f', 'g', 'h', 'i', 'j', 'k', 'l', 'm',
   'n', 'o', 'p', 'q', 'r', 's', 't', 'u', 'v', 'w', 'x', 'y', 'z',
   '0', '1', '2', '3', '4', '5', '6', '7', '8', '9', '-', '_']

/-- Character of the URL-safe base64 alphabet at a 6-bit index. -/
def b64urlChar (i : Nat) : Char := base64URLAlphabet.getD i 'A'

/-- Whether a character belongs to the URL-safe base64 alphabet. -/
def isURLSafeChar (c : Char) : Bool := base64URLAlphabet.contains c

/-- Embeds Go's `base64.RawURLEncoding.EncodeToString` on a byte sequence
(bytes as `Nat` values below 256): three input bytes become four 6-bit
characters, a final group of one or two bytes becomes two or three characters,
with no padding. -/
def base64RawURLEncode : List Nat → List Char
  | [] => []
  | [b1] => [b64urlChar (b1 / 4), b64urlChar (b1 % 4 * 16)]
  | [b1, b2] =>
      [b64urlChar (b1 / 4), b64urlChar (b1 % 4 * 16 + b2 / 16),
       b64urlChar (b2 % 16 * 4)]
  | b1 :: b2 :: b3 :: rest =>
      b64urlChar (b1 / 4) :: b64urlChar (b1 % 4 * 16 + b2 / 16) ::
      b64urlChar (b2 % 16 * 4 + b3 / 64) :: b64urlChar (b3 % 64) ::
      base64RawURLEncode rest

/-- Embeds `generateShortURL(n)`: reading `n` bytes from the secure random
source (the read outcome is the explicit `randRead` argument), encoding them
with `base64.RawURLEncoding`, and truncating to the first `n` characters.
A failed read is returned unchanged. -/
def generateShortURL (n : Nat) (randRead : Except Err (List Nat)) :
    Except Err String :=
  match randRead with
  | .error e => .error e
  | .ok b => .ok (String.mk ((base64RawURLEncode b).take n))

/-- Embeds `service.deleteRequest`: one enqueued batch-deletion request. -/
structure deleteRequest where
  ShortURLs : List String
  UserID : String
deriving DecidableEq, Repr

namespace URLService

/-- Embeds `URLService.Shorten` over the in-memory repository: generate a
6-character short code (propagating a random-source failure), pick the caller
id or the freshly generated UUID `freshID`, build the record, and delegate to
`repo.Save`. -/
def Shorten (repo : MemRepo) (randRead : Except Err (List Nat))
    (freshID original id userID : String) : Except Err (MemRepo × URL) :=
  match generateShortURL 6 randRead with
  | .error e => .error e
  | .ok shortURL =>
      let recID := if id = "" then freshID else id
      let url : URL :=
        { id := recID, original := original, short := shortURL,
          userID := userID, isDeleted := false }
      match memoryURLRepository.Save repo url with
      | (repo', url', none) => .ok (repo', url')
      | (_, _, some e) => .error e

/-- Embeds `URLService.Resolve`: forwards to `repo.GetByShortURL` and returns
the record unchanged. -/
def Resolve (repo : MemRepo) (shortURL : String) : Except Err URL :=
  match memoryURLRepository.GetByShortURL repo shortURL with
  | .error e => .error e
  | .ok url => .ok url

/-- Embeds `URLService.GetUserURLs`: forwards to `repo.GetByUserID`. -/
def GetUserURLs (repo : MemRepo) (userID : String) : Except Err (List URL) :=
  memoryURLRepository.GetByUserID repo userID

end URLService

-- The asynchronous batch-deletion subsystem.

/-- Service state relevant to deletion: the buffered channel
`deleteReqCh chan deleteRequest`, embedded as the list of pending requests
(front of the list = next to be received) plus the channel capacity. -/
structure URLServiceState where
  queue : List deleteRequest
  cap : Nat
deriving DecidableEq, Repr

/-- Embeds `NewURLService`: a fresh service has an empty delete channel created
with `make(chan deleteRequest, 100)`. -/
def NewURLService : URLServiceState := { queue := [], cap := 100 }

/-- Outcome of a send on the buffered channel: the send completes and the
request joins the buffer, or the sender blocks because the buffer is full. -/
inductive SendResult where
  | sent (queue : List deleteRequest)
  | blocked
deriving DecidableEq, Repr

/-- Go buffered-channel send `ch <- req`: completes immediately while the
buffer holds fewer elements than the capacity, otherwise blocks the sender. -/
def chanSend (cap : Nat) (queue : List deleteRequest) (req : deleteRequest) :
    SendResult :=
  if queue.length < cap then .sent (queue ++ [req]) else .blocked

namespace URLService

/-- Embeds `URLService.BatchDelete`: sends the delete request on the channel
and returns a nil error (the deletion itself happens asynchronously). -/
def BatchDelete (st : URLServiceState) (shortURLs : List String)
    (userID : String) : SendResult × Option Err :=
  (chanSend st.cap st.queue { ShortURLs := shortURLs, UserID := userID }, none)

/-- The `userURLs[req.UserID] = append(userURLs[req.UserID], req.ShortURLs...)`
step of `flushBatch`: append the request's codes to the owner's entry of the
grouping map. -/
def appendCodes (m : List (String × List String)) (uid : String)
    (codes : List String) : List (String × List String) :=
  mapStore m uid (((mapFind m uid).getD []) ++ codes)

/-- Grouping loop of `flushBatch`, fold over the accumulated batch. -/
def groupLoop : List (String × List String) → List deleteRequest →
    List (String × List String)
  | m, [] => m
  | m, req :: rest => groupLoop (appendCodes m req.UserID req.ShortURLs) rest

/-- The grouping map `userURLs` built by `flushBatch` from the batch. -/
def groupByUser (batch : List deleteRequest) : List (String × List String) :=
  groupLoop [] batch

/-- Call loop of `flushBatch` over the grouping map: one
`repo.BatchDelete(urls, userID)` per entry; a failing call only contributes a
log line. Returns the issued calls and the log. The repository is abstracted
by `bd`, the outcome of each `BatchDelete` call. -/
def issueBatchDeletes (bd : List String → String → Except Err Unit) :
    List (String × List String) → List (List String × String) × List String
  | [] => ([], [])
  | (uid, urls) :: rest =>
      let acc := issueBatchDeletes bd rest
      match bd urls uid with
      | .ok _ => ((urls, uid) :: acc.1, acc.2)
      | .error _ => ((urls, uid) :: acc.1, "[flushBatch] batch delete error" :: acc.2)

/-- Embeds `URLService.flushBatch`: group the batch by owner, then issue one
`repo.BatchDelete` call per distinct owner, logging (and otherwise ignoring)
call failures. -/
def flushBatch (bd : List String → String → Except Err Unit)
    (batch : List deleteRequest) : List (List String × String) × List String :=
  issueBatchDeletes bd (groupByUser batch)

end URLService

/-- Size threshold of the delete worker (`batchSize := 50`). -/
def batchSize : Nat := 50

/-- Idle interval of the delete worker in milliseconds (`batchTimeout := 100`). -/
def batchTimeout : Nat := 100

/-- Observable actions of one iteration of the delete worker loop: invoking
`flushBatch` on a batch, or sleeping for some milliseconds. -/
inductive WorkerEvent where
  | flush (batch : List deleteRequest)
  | doze (ms : Nat)
deriving DecidableEq, Repr

/-- State of the delete worker between loop iterations: the channel buffer and
the accumulated batch. -/
structure WorkerState where
  queue : List deleteRequest
  batch : List deleteRequest
deriving DecidableEq, Repr

/-- One iteration of the `deleteWorker` loop (`select` with a `default`
branch): when the channel has a pending request, receive it, append it to the
batch and flush as soon as the batch reaches `batchSize`; when the channel is
momentarily empty, flush any non-empty batch immediately and then sleep for
`batchTimeout` milliseconds. -/
def workerStep : WorkerState → WorkerState × List WorkerEvent
  | { queue := req :: rest, batch := batch } =>
      let b := batch ++ [req]
      if batchSize ≤ b.length then ({ queue := rest, batch := [] }, [.flush b])
      else ({ queue := rest, batch := b }, [])
  | { queue := [], batch := batch } =>
      if batch.length > 0 then
        ({ queue := [], batch := [] }, [.flush batch, .doze batchTimeout])
      else ({ queue := [], batch := batch }, [.doze batchTimeout])

/-- The merged code list of one owner in a batch: the concatenation, in batch
order, of the short-code lists of every request of that owner. -/
def mergedCodes (uid : String) : List deleteRequest → List String
  | [] => []
  | req :: rest =>
      if req.UserID = uid then req.ShortURLs ++ mergedCodes uid rest
      else mergedCodes uid rest

/-- The record created by the first `Shorten` call of the duplicate-original
scenario: random bytes all zero encode to short code `AAAAAA`. -/
def urlU1 : URL :=
  { id := "id1", original := "https://example.com", short := "AAAAAA",
    userID := "u1", isDeleted := false }

/-- The record created by the second `Shorten` call of the duplicate-original
scenario: random bytes all 255 encode to short code `______`. -/
def url2v : URL :=
  { id := "id2", original := "https://example.com", short := "______",
    userID := "u1", isDeleted := false }

-- Basic lemmas about the Go-map embedding.

theorem mapFind_mapStore_self {α : Type} (m : List (String × α)) (s : String) (v : α) :
    mapFind (mapStore m s v) s = some v := by
  induction m with
  | nil => simp [mapStore, mapFind]
  | cons kv rest ih =>
      obtain ⟨k, w⟩ := kv
      by_cases hk : k = s
      · simp [mapStore, hk, mapFind]
      · simp [mapStore, hk, mapFind, ih]

theorem mapFind_mapStore_other {α : Type} (m : List (String × α)) (s k : String)
    (v : α) (hk : k ≠ s) : mapFind (mapStore m s v) k = mapFind m k := by
  induction m with
  | nil => simp [mapStore, mapFind, Ne.symm hk]
  | cons kv rest ih =>
      obtain ⟨k', w⟩ := kv
      by_cases hks : k' = s
      · subst hks
        simp [mapStore, mapFind, Ne.symm hk]
      · simp [mapStore, hks, mapFind, ih]

/-- Effect of the `BatchDelete` loop on every key of the repository map:
the record at key `k` gets its deleted flag set exactly when `k` is one of the
requested codes, the record belongs to the requesting user, and the flag is
not yet set; all other records (and absent keys) are untouched. -/
theorem batchDeleteLoop_find (uid k : String) (codes : List String) :
    ∀ repo : MemRepo,
    mapFind (memoryURLRepository.batchDeleteLoop uid repo codes) k =
      (mapFind repo k).map (fun u =>
        if k ∈ codes ∧ u.userID = uid ∧ u.isDeleted = false then
          { u with isDeleted := true }
        else u) := by
  induction codes with
  | nil =>
      intro repo
      cases h : mapFind repo k <;>
        simp [memoryURLRepository.batchDeleteLoop, h]
  | cons c rest ih =>
      intro repo
      simp only [memoryURLRepository.batchDeleteLoop]
      rcases hc : mapFind repo c with _ | u
      · simp only [hc, ih repo]
        cases hk' : mapFind repo k with
        | none => simp
        | some w =>
            by_cases hk : k = c
            · rw [hk] at hk'; rw [hc] at hk'; cases hk'
            · simp [List.mem_cons, hk]
      · simp only [hc]
        by_cases hcond : u.userID = uid ∧ u.isDeleted = false
        · simp only [if_pos hcond]
          rw [ih (mapStore repo c { u with isDeleted := true })]
          by_cases hk : k = c
          · subst hk
            rw [mapFind_mapStore_self, hc]
            simp [List.mem_cons, hcond]
          · rw [mapFind_mapStore_other _ _ _ _ hk]
            cases hk' : mapFind repo k with
            | none => simp
            | some w => simp [List.mem_cons, hk]
        · simp only [if_neg hcond]
          rw [ih repo]
          cases hk' : mapFind repo k with
          | none => simp
          | some w =>
              by_cases hk : k = c
              · subst hk
                rw [hc] at hk'
                cases hk'
                simp [List.mem_cons, hcond]
              · simp [List.mem_cons, hk]

/-- C4: `memoryURLRepository.BatchDelete(codes, ownerID)` succeeds and sets
the deleted flag on exactly the stored records whose short code is in `codes`,
whose owner is `ownerID`, and whose flag is not yet set; every other record,
and every absent key, is left unchanged. -/
theorem memory_batchDelete_marks_exactly_matching (repo : MemRepo)
    (codes : List String) (uid k : String) :
    (memoryURLRepository.BatchDelete repo codes uid).2 = none ∧
    mapFind (memoryURLRepository.BatchDelete repo codes uid).1 k =
      (mapFind repo k).map (fun u =>
        if k ∈ codes ∧ u.userID = uid ∧ u.isDeleted = false then
          { u with isDeleted := true }
        else u) :=
  ⟨rfl, batchDeleteLoop_find uid k codes repo⟩

/-- C10: `memoryURLRepository.Save` succeeds unconditionally: it returns the
given record with a nil error (in particular never the already-exists
conflict), and stores it under its short code, replacing whatever record was
previously bound there while leaving every other key unchanged. -/
theorem memory_save_unconditional (repo : MemRepo) (url : URL) (k : String) :
    (memoryURLRepository.Save repo url).2.2 = none ∧
    (memoryURLRepository.Save repo url).2.1 = url ∧
    mapFind (memoryURLRepository.Save repo url).1 k =
      (if k = url.short then some url else mapFind repo k) := by
  refine ⟨rfl, rfl, ?_⟩
  by_cases hk : k = url.short
  · subst hk
    simp [memoryURLRepository.Save, mapFind_mapStore_self]
  · simp [memoryURLRepository.Save, hk, mapFind_mapStore_other _ _ _ _ hk]

/-- C7: `Resolve` fails with NotFound exactly when no record with the short
code exists; when the record exists it is returned in full, deleted flag
included, unmodified. -/
theorem resolve_notFound_iff_absent (repo : MemRepo) (s : String) :
    (URLService.Resolve repo s = .error .notFound ↔ mapFind repo s = none) ∧
    (∀ u, mapFind repo s = some u → URLService.Resolve repo s = .ok u) := by
  refine ⟨⟨?_, ?_⟩, ?_⟩
  · intro h
    cases hf : mapFind repo s with
    | none => rfl
    | some u =>
        simp [URLService.Resolve, memoryURLRepository.GetByShortURL, hf] at h
  · intro h
    simp [URLService.Resolve, memoryURLRepository.GetByShortURL, h]
  · intro u h
    simp [URLService.Resolve, memoryURLRepository.GetByShortURL, h]

/-- Witness for C7: resolving a stored record that is already soft-deleted
returns it unchanged, deleted flag and all. -/
theorem resolve_notFound_iff_absent_witness :
    URLService.Resolve
        [("abc", { id := "i", original := "o", short := "abc",
                   userID := "u", isDeleted := true })] "abc" =
      .ok { id := "i", original := "o", short := "abc",
            userID := "u", isDeleted := true } :=
  (resolve_notFound_iff_absent _ _).2 _ rfl

/-- C6 (failing input): `GetByUserID` on an owner with zero records returns
`ErrNotFound` instead of the empty collection promised by its documentation,
both on an empty repository and on one whose records all belong to another
owner; the service layer forwards that error. -/
theorem getUserURLs_empty_owner_notFound :
    memoryURLRepository.GetByUserID [] "u1" = .error .notFound ∧
    memoryURLRepository.GetByUserID [("AAAAAA", urlU1)] "u2" = .error .notFound ∧
    URLService.GetUserURLs [("AAAAAA", urlU1)] "u2" = .error .notFound :=
  ⟨rfl, rfl, rfl⟩

/-- C5 (counterexample): shortening the same original URL twice against the
in-memory repository yields two different short codes and no already-exists
signal — the second call succeeds and creates a second record, refuting the
claim that both calls return the same short code with a conflict signal. -/
theorem shorten_same_original_no_conflict_signal :
    URLService.Shorten [] (.ok [0, 0, 0, 0, 0, 0]) "id1"
        "https://example.com" "" "u1" = .ok ([("AAAAAA", urlU1)], urlU1) ∧
    URLService.Shorten [("AAAAAA", urlU1)] (.ok [255, 255, 255, 255, 255, 255])
        "id2" "https://example.com" "" "u1" =
      .ok ([("AAAAAA", urlU1), ("______", url2v)], url2v) ∧
    url2v.short ≠ urlU1.short := by
  refine ⟨rfl, rfl, ?_⟩
  decide

-- Lemmas about the per-owner grouping performed by `flushBatch`.

theorem mapFind_appendCodes (m : List (String × List String)) (u k : String)
    (codes : List String) :
    mapFind (URLService.appendCodes m u codes) k =
      if k = u then some (((mapFind m u).getD []) ++ codes) else mapFind m k := by
  by_cases hk : k = u
  · subst hk
    simp [URLService.appendCodes, mapFind_mapStore_self]
  · simp [URLService.appendCodes, hk, mapFind_mapStore_other _ _ _ _ hk]

theorem mergedCodes_eq_nil_of_not_owner (uid : String) :
    ∀ batch : List deleteRequest,
    uid ∉ batch.map deleteRequest.UserID → mergedCodes uid batch = [] := by
  intro batch
  induction batch with
  | nil => intro _; rfl
  | cons req rest ih =>
      intro h
      simp only [List.map_cons, List.mem_cons] at h
      push_neg at h
      simp [mergedCodes, Ne.symm h.1, ih h.2]

theorem groupLoop_find (uid : String) (batch : List deleteRequest) :
    ∀ m : List (String × List String),
    mapFind (URLService.groupLoop m batch) uid =
      if uid ∈ batch.map deleteRequest.UserID then
        some (((mapFind m uid).getD []) ++ mergedCodes uid batch)
      else mapFind m uid := by
  induction batch with
  | nil => intro m; simp [URLService.groupLoop]
  | cons req rest ih =>
      intro m
      simp only [URLService.groupLoop]
      rw [ih]
      by_cases hu : uid = req.UserID
      · subst hu
        by_cases hmem : req.UserID ∈ rest.map deleteRequest.UserID
        · simp [hmem, mapFind_appendCodes, mergedCodes, List.append_assoc]
        · simp [hmem, mapFind_appendCodes, mergedCodes,
                mergedCodes_eq_nil_of_not_owner _ rest hmem]
      · by_cases hmem : uid ∈ rest.map deleteRequest.UserID
        · simp [hmem, mapFind_appendCodes, hu, mergedCodes, Ne.symm hu]
        · simp [hmem, mapFind_appendCodes, hu, mergedCodes, Ne.symm hu]

theorem keys_mapStore {α : Type} (m : List (String × α)) (k : String) (v : α) :
    (mapStore m k v).map Prod.fst =
      if k ∈ m.map Prod.fst then m.map Prod.fst else m.map Prod.fst ++ [k] := by
  induction m with
  | nil => simp [mapStore]
  | cons kv rest ih =>
      obtain ⟨k', w⟩ := kv
      by_cases hk : k' = k
      · subst hk
        simp [mapStore]
      · simp only [mapStore, if_neg hk, List.map_cons, List.mem_cons]
        rw [ih]
        by_cases hmem : k ∈ rest.map Prod.fst
        · simp [hmem, Ne.symm hk]
        · simp [hmem, Ne.symm hk]

theorem mem_keys_mapStore {α : Type} (m : List (String × α)) (k u : String)
    (v : α) :
    u ∈ (mapStore m k v).map Prod.fst ↔ u ∈ m.map Prod.fst ∨ u = k := by
  rw [keys_mapStore]
  by_cases hmem : k ∈ m.map Prod.fst
  · simp only [if_pos hmem]
    constructor
    · exact fun h => Or.inl h
    · rintro (h | h)
      · exact h
      · exact h ▸ hmem
  · simp [if_neg hmem, List.mem_append]

theorem keys_nodup_mapStore {α : Type} (m : List (String × α)) (k : String)
    (v : α) (h : (m.map Prod.fst).Nodup) :
    ((mapStore m k v).map Prod.fst).Nodup := by
  rw [keys_mapStore]
  by_cases hmem : k ∈ m.map Prod.fst
  · simpa [hmem] using h
  · simp only [if_neg hmem]
    rw [List.nodup_append]
    refine ⟨h, List.nodup_singleton k, ?_⟩
    intro a ha hak
    rw [List.mem_singleton] at hak
    exact hmem (hak ▸ ha)

theorem mem_keys_groupLoop (uid : String) (batch : List deleteRequest) :
    ∀ m : List (String × List String),
    uid ∈ (URLService.groupLoop m batch).map Prod.fst ↔
      uid ∈ m.map Prod.fst ∨ uid ∈ batch.map deleteRequest.UserID := by
  induction batch with
  | nil => intro m; simp [URLService.groupLoop]
  | cons req rest ih =>
      intro m
      simp only [URLService.groupLoop]
      rw [ih]
      rw [show URLService.appendCodes m req.UserID req.ShortURLs =
            mapStore m req.UserID (((mapFind m req.UserID).getD []) ++ req.ShortURLs)
          from rfl]
      rw [mem_keys_mapStore]
      simp only [List.map_cons, List.mem_cons]
      tauto

theorem keys_nodup_groupLoop (batch : List deleteRequest) :
    ∀ m : List (String × List String), (m.map Prod.fst).Nodup →
    ((URLService.groupLoop m batch).map Prod.fst).Nodup := by
  induction batch with
  | nil => intro m h; simpa [URLService.groupLoop] using h
  | cons req rest ih =>
      intro m h
      simp only [URLService.groupLoop]
      exact ih _ (keys_nodup_mapStore _ _ _ h)

theorem issueBatchDeletes_calls (bd : List String → String → Except Err Unit) :
    ∀ gs : List (String × List String),
    (URLService.issueBatchDeletes bd gs).1 = gs.map (fun e => (e.2, e.1)) := by
  intro gs
  induction gs with
  | nil => rfl
  | cons e rest ih =>
      obtain ⟨uid, urls⟩ := e
      cases hbd : bd urls uid <;>
        simp [URLService.issueBatchDeletes, hbd, ih]

/-- C1: one flush groups the accumulated requests by owner — the grouping map
has each owner of the batch exactly once as a key, bound to the concatenation
of the short-code lists of all of that owner's requests — and `flushBatch`
issues exactly one `repository.BatchDelete` call per entry of that map,
passing the merged list together with the owner id. -/
theorem flushBatch_one_call_per_owner (batch : List deleteRequest)
    (uid : String) (bd : List String → String → Except Err Unit) :
    ((URLService.groupByUser batch).map Prod.fst).Nodup ∧
    (uid ∈ (URLService.groupByUser batch).map Prod.fst ↔
      uid ∈ batch.map deleteRequest.UserID) ∧
    mapFind (URLService.groupByUser batch) uid =
      (if uid ∈ batch.map deleteRequest.UserID then some (mergedCodes uid batch)
       else none) ∧
    (URLService.flushBatch bd batch).1 =
      (URLService.groupByUser batch).map (fun e => (e.2, e.1)) := by
  refine ⟨?_, ?_, ?_, ?_⟩
  · exact keys_nodup_groupLoop batch [] (by simp)
  · rw [URLService.groupByUser, mem_keys_groupLoop]
    simp
  · rw [URLService.groupByUser, groupLoop_find]
    by_cases hmem : uid ∈ batch.map deleteRequest.UserID
    · simp [hmem, mapFind]
    · simp [hmem, mapFind]
  · exact issueBatchDeletes_calls bd _

/-- Idle branch of the worker loop: with an empty queue and a non-empty batch,
one iteration flushes the batch, then sleeps, and resumes with an empty
batch. -/
theorem workerStep_idle_flush (w : WorkerState) (hq : w.queue = [])
    (hb : w.batch ≠ []) :
    workerStep w = ({ queue := [], batch := [] },
                    [WorkerEvent.flush w.batch, WorkerEvent.doze batchTimeout]) := by
  obtain ⟨queue, batch⟩ := w
  subst hq
  have hlen : batch.length > 0 := List.length_pos.mpr hb
  simp [workerStep, hlen]

/-- C2 (counterexample): with an empty channel and a single accumulated
request, one worker iteration produces the trace `[flush, doze 100]` — the
worker flushes immediately and sleeps afterwards, not the
`[doze 100, flush]` trace required by the wait-first-then-flush claim. -/
theorem worker_idle_branch_flushes_before_sleeping :
    (workerStep { queue := [],
                  batch := [{ ShortURLs := ["a"], UserID := "u" }] }).2 =
      [WorkerEvent.flush [{ ShortURLs := ["a"], UserID := "u" }],
       WorkerEvent.doze 100] ∧
    (workerStep { queue := [],
                  batch := [{ ShortURLs := ["a"], UserID := "u" }] }).2 ≠
      [WorkerEvent.doze 100,
       WorkerEvent.flush [{ ShortURLs := ["a"], UserID := "u" }]] := by
  refine ⟨rfl, ?_⟩
  decide

/-- C2 (amended): the worker loop's three-state behavior: while draining, a
received request joins the batch, and an immediate flush happens exactly when
the batch reaches the 50-request threshold; when the queue is momentarily
empty and the batch non-empty, the worker flushes the accumulated batch
immediately and only then sleeps the 100 ms idle interval; after every flush
the worker is back to draining with an empty batch. -/
theorem worker_state_machine (st : WorkerState) :
    batchSize = 50 ∧ batchTimeout = 100 ∧
    (∀ req rest, st.queue = req :: rest →
      (batchSize ≤ st.batch.length + 1 →
        workerStep st = ({ queue := rest, batch := [] },
                         [WorkerEvent.flush (st.batch ++ [req])])) ∧
      (st.batch.length + 1 < batchSize →
        workerStep st = ({ queue := rest, batch := st.batch ++ [req] }, []))) ∧
    (st.queue = [] → st.batch ≠ [] →
      workerStep st = ({ queue := [], batch := [] },
                       [WorkerEvent.flush st.batch,
                        WorkerEvent.doze batchTimeout])) ∧
    (∀ b, WorkerEvent.flush b ∈ (workerStep st).2 →
      (workerStep st).1.batch = []) := by
  obtain ⟨queue, batch⟩ := st
  refine ⟨rfl, rfl, ?_, ?_, ?_⟩
  · intro req rest h
    dsimp only at h ⊢
    subst h
    constructor
    · intro hlen
      simp [workerStep, hlen]
    · intro hlen
      have hb : ¬ batchSize ≤ batch.length + 1 := by omega
      simp [workerStep, hb]
  · intro hq hb
    exact workerStep_idle_flush _ hq hb
  · intro b hb
    cases queue with
    | nil =>
        by_cases h : batch.length > 0
        · simp [workerStep, h]
        · simp [workerStep, h] at hb
    | cons req rest =>
        by_cases h : batchSize ≤ batch.length + 1
        · simp [workerStep, h]
        · simp [workerStep, h] at hb

/-- Witness for C2 (amended): receiving one request into an empty batch stays
below the threshold, so the worker keeps draining without flushing. -/
theorem worker_state_machine_witness :
    workerStep { queue := [{ ShortURLs := ["a"], UserID := "u" }],
                 batch := [] } =
      ({ queue := [], batch := [{ ShortURLs := ["a"], UserID := "u" }] }, []) :=
  ((worker_state_machine _).2.2.1 _ _ rfl).2 (by decide)

/-- C3: a failing `repository.BatchDelete` during a flush is contained: the
issued calls are the same whatever the call outcomes are (so the remaining
owners of the cycle still get their calls, and failing calls at most add log
lines), the service `BatchDelete` that enqueued the requests returns a nil
error, and after the flush the worker drops the flushed requests (empty
batch) and keeps looping on the queue. -/
theorem flush_failure_only_logged
    (bd bd2 : List String → String → Except Err Unit)
    (batch : List deleteRequest) (st : URLServiceState)
    (codes : List String) (uid : String) (w : WorkerState) :
    (URLService.flushBatch bd batch).1 = (URLService.flushBatch bd2 batch).1 ∧
    (URLService.BatchDelete st codes uid).2 = none ∧
    (w.queue = [] → w.batch ≠ [] →
      workerStep w = ({ queue := [], batch := [] },
                      [WorkerEvent.flush w.batch,
                       WorkerEvent.doze batchTimeout])) := by
  refine ⟨?_, rfl, ?_⟩
  · rw [URLService.flushBatch, URLService.flushBatch,
        issueBatchDeletes_calls, issueBatchDeletes_calls]
  · intro hq hb
    exact workerStep_idle_flush w hq hb

/-- Witness for C3: flushing a one-request batch with a repository whose
`BatchDelete` always fails still issues that owner's call, logs once, and the
enqueue returns a nil error. -/
theorem flush_failure_only_logged_witness :
    workerStep { queue := [],
                 batch := [{ ShortURLs := ["a"], UserID := "u" }] } =
      ({ queue := [], batch := [] },
       [WorkerEvent.flush [{ ShortURLs := ["a"], UserID := "u" }],
        WorkerEvent.doze batchTimeout]) :=
  (flush_failure_only_logged (fun _ _ => .error .notFound) (fun _ _ => .ok ())
      [] NewURLService [] "u" _).2.2 rfl (by decide)

/-- C9: the delete queue created by `NewURLService` is bounded at capacity
100; an enqueue through the service `BatchDelete` completes without blocking
and returns a nil error whenever capacity remains; when the queue is full the
send blocks instead of failing or dropping the request, and as soon as the
worker receives one request from the full queue the same send completes and
the request joins the queue. -/
theorem batchDelete_bounded_queue_backpressure (queue : List deleteRequest)
    (codes : List String) (uid : String) :
    NewURLService.cap = 100 ∧ NewURLService.queue = [] ∧
    (queue.length < 100 →
      URLService.BatchDelete { queue := queue, cap := 100 } codes uid =
        (.sent (queue ++ [{ ShortURLs := codes, UserID := uid }]), none)) ∧
    (¬ queue.length < 100 →
      (URLService.BatchDelete { queue := queue, cap := 100 } codes uid).1 =
        .blocked) ∧
    (∀ req rest, queue = req :: rest → queue.length = 100 →
      chanSend 100 (workerStep { queue := queue, batch := [] }).1.queue
          { ShortURLs := codes, UserID := uid } =
        .sent (rest ++ [{ ShortURLs := codes, UserID := uid }])) := by
  refine ⟨rfl, rfl, ?_, ?_, ?_⟩
  · intro h
    simp [URLService.BatchDelete, chanSend, h]
  · intro h
    simp [URLService.BatchDelete, chanSend, h]
  · intro req rest hq h100
    subst hq
    have hlt : ¬ batchSize ≤ 1 := by simp [batchSize]
    have hrest : rest.length < 100 := by
      simp only [List.length_cons] at h100
      omega
    simp [workerStep, hlt, chanSend, hrest]

/-- Witness for C9: on the fresh service's empty queue, one enqueue completes
immediately with a nil error and the request is buffered. -/
theorem batchDelete_bounded_queue_backpressure_witness :
    URLService.BatchDelete { queue := [], cap := 100 } ["a"] "u" =
      (.sent [{ ShortURLs := ["a"], UserID := "u" }], none) :=
  (batchDelete_bounded_queue_backpressure [] ["a"] "u").2.2.1 (by decide)

-- Lemmas about the base64 URL-safe encoding used by the short-code generator.

theorem b64urlChar_safe : ∀ i : Nat, i < 64 → isURLSafeChar (b64urlChar i) = true := by
  decide

theorem le_length_base64 :
    ∀ bs : List Nat, bs.length ≤ (base64RawURLEncode bs).length
  | [] => by simp [base64RawURLEncode]
  | [b1] => by simp [base64RawURLEncode]
  | [b1, b2] => by simp [base64RawURLEncode]
  | b1 :: b2 :: b3 :: rest => by
      have ih := le_length_base64 rest
      simp only [base64RawURLEncode, List.length_cons]
      omega

theorem mem_base64_safe :
    ∀ bs : List Nat, (∀ b ∈ bs, b < 256) →
      ∀ c ∈ base64RawURLEncode bs, isURLSafeChar c = true
  | [], _, c, hc => by simp [base64RawURLEncode] at hc
  | [b1], h, c, hc => by
      have hb1 : b1 < 256 := h b1 (by simp)
      simp only [base64RawURLEncode, List.mem_cons, List.not_mem_nil,
        or_false] at hc
      rcases hc with hc | hc <;> subst hc <;>
        exact b64urlChar_safe _ (by omega)
  | [b1, b2], h, c, hc => by
      have hb1 : b1 < 256 := h b1 (by simp)
      have hb2 : b2 < 256 := h b2 (by simp)
      simp only [base64RawURLEncode, List.mem_cons, List.not_mem_nil,
        or_false] at hc
      rcases hc with hc | hc | hc <;> subst hc <;>
        exact b64urlChar_safe _ (by omega)
  | b1 :: b2 :: b3 :: rest, h, c, hc => by
      have hb1 : b1 < 256 := h b1 (by simp)
      have hb2 : b2 < 256 := h b2 (by simp)
      have hb3 : b3 < 256 := h b3 (by simp)
      have ih := mem_base64_safe rest (fun b hb => h b (by simp [hb]))
      simp only [base64RawURLEncode, List.mem_cons] at hc
      rcases hc with hc | hc | hc | hc | hc
      · subst hc; exact b64urlChar_safe _ (by omega)
      · subst hc; exact b64urlChar_safe _ (by omega)
      · subst hc; exact b64urlChar_safe _ (by omega)
      · subst hc; exact b64urlChar_safe _ (by omega)
      · exact ih c hc

/-- C8: for a requested length `n ≥ 1` and any `n` bytes delivered by the
random source, the generated short code has length exactly `n` and consists
only of URL-safe base64 alphabet characters; generation fails only when the
random read fails, and that failure is propagated unchanged from `Shorten`. -/
theorem generated_code_length_and_alphabet (n : Nat) (bs : List Nat)
    (hn : 1 ≤ n) (hlen : bs.length = n) (hbytes : ∀ b ∈ bs, b < 256) :
    (∃ s, generateShortURL n (.ok bs) = .ok s ∧ s.length = n ∧
      ∀ c ∈ s.data, isURLSafeChar c = true) ∧
    (∀ e, generateShortURL n (.error e) = .error e) ∧
    (∀ repo freshID original id userID e,
      URLService.Shorten repo (.error e) freshID original id userID =
        .error e) := by
  refine ⟨⟨String.mk ((base64RawURLEncode bs).take n), rfl, ?_, ?_⟩,
    fun e => rfl, fun repo freshID original id userID e => rfl⟩
  · show ((base64RawURLEncode bs).take n).length = n
    rw [List.length_take]
    have h1 : bs.length ≤ (base64RawURLEncode bs).length := le_length_base64 bs
    omega
  · intro c hc
    exact mem_base64_safe bs hbytes c (List.take_subset _ _ hc)

/-- Witness for C8: six zero bytes produce a 6-character code. -/
theorem generated_code_length_and_alphabet_witness :
    (generateShortURL 6 (.ok [0, 0, 0, 0, 0, 0])).toOption.elim 0
      String.length = 6 := by
  obtain ⟨⟨s, hs, hslen, -⟩, -, -⟩ :=
    generated_code_length_and_alphabet 6 [0, 0, 0, 0, 0, 0] (by decide) rfl
      (by decide)
  rw [hs]
  simpa using hslen
